import Mathlib

/-!
Verification of the org-chart hierarchy engine: a shallow embedding of the
employee forest, the visible-subgraph extractor (`calculateOrgChartLayout`
in `src/org-tree/utils/elkUtils.ts`), the cycle guard (`isSubordinate`),
the drag-end reparent coordinator (`handleDragEnd`) and the persistence
path (`updateEmployeeManager`) from `src/org-tree/OrgTree.tsx`.

Modelling conventions:
- A `managerId` that is `null`/`undefined`/empty in the TypeScript source is
  modelled as the empty string `""`; every dereference in the source guards
  `managerId` with a JavaScript truthiness test, which identifies those
  three values, so the collapse is observation-preserving.
- The two ancestor walks in the source (the `while` loop over the manager
  chain and the recursive `isSubordinate`) carry no visited set and so need
  not terminate on cyclic data.  They are embedded as fuel-indexed
  functions returning `Option`; `none` means the computation did not finish
  within the given recursion depth.  A result that is `none` for every fuel
  is a divergent run of the source program.
- Asynchronous completions (persistence responses, layout results) are
  modelled by passing the completion outcome explicitly.
-/

namespace OrgGraph

/-- Employee record (`src/services/types`, as used throughout the source):
`id`, `name`, `designation`, `team`, and the nullable manager link
`managerId` (`""` models null/empty, i.e. a root). -/
structure Employee where
  id : String
  name : String
  designation : String
  team : String
  managerId : String
  deriving Repr, DecidableEq

/-- `isSubordinate` (OrgTree.tsx lines 103-108), fuel-indexed.  The source:
`const emp = employees.find((e) => e.id === potentialSubId); if (!emp ||
!emp.managerId) return false; if (emp.managerId === empId) return true;
return isSubordinate(empId, emp.managerId);` — a naive recursion with no
visited set.  `none` = recursion depth exhausted. -/
def isSubordinate (employees : List Employee) : Nat → String → String → Option Bool
  | 0, _, _ => none
  | fuel + 1, empId, potentialSubId =>
    match employees.find? (fun e => e.id == potentialSubId) with
    | none => some false
    | some emp =>
      if emp.managerId = "" then some false
      else if emp.managerId = empId then some true
      else isSubordinate employees fuel empId emp.managerId

/-- The manager-chain walk of the extractor (elkUtils, lines 55-62): starting
from `current`, while `current.managerId` is truthy, record the managerId and
step to `employees.find(e => e.id === current.managerId)`, stopping when the
id does not resolve.  Returns the list of manager ids recorded, in order;
`none` = the loop did not finish within `fuel` iterations (the source loop
has no visited set). -/
def chainWalk (employees : List Employee) : Nat → Employee → Option (List String)
  | 0, _ => none
  | fuel + 1, current =>
    if current.managerId = "" then some []
    else
      match employees.find? (fun e => e.id == current.managerId) with
      | none => some [current.managerId]
      | some next => (chainWalk employees fuel next).map (fun l => current.managerId :: l)

/-- The `filteredEmployees.forEach` of elkUtils lines 55-62: one chain walk
per visible employee, all recorded ids concatenated. -/
def walkAll (employees : List Employee) (fuel : Nat) : List Employee → Option (List String)
  | [] => some []
  | v :: rest =>
    match chainWalk employees fuel v, walkAll employees fuel rest with
    | some l, some ls => some (l ++ ls)
    | _, _ => none

/-- `nodesToShow` of elkUtils lines 52-62: the ids of the visible employees
together with every manager id recorded by the chain walks.  The source
keeps a `Set`; it is only ever queried through `.has`, so a list with
membership is an equivalent embedding. -/
def extractNodes (employees filteredEmployees : List Employee) (fuel : Nat) :
    Option (List String) :=
  (walkAll employees fuel filteredEmployees).map
    (fun chains => filteredEmployees.map (fun e => e.id) ++ chains)

/-- `displayEmployees` of elkUtils line 64: `employees.filter(e => nodesToShow.has(e.id))`. -/
def displayEmployees (employees : List Employee) (nodesToShow : List String) : List Employee :=
  employees.filter (fun e => nodesToShow.contains e.id)

/-- ELK node sent to the layout engine (elkUtils lines 4-10, 66-70). -/
structure ELKNode where
  id : String
  x : Option Nat := none
  y : Option Nat := none
  width : Nat
  height : Nat
  deriving Repr, DecidableEq

/-- ELK edge sent to the layout engine (elkUtils lines 12-16, 72-78). -/
structure ELKEdge where
  id : String
  sources : List String
  targets : List String
  deriving Repr, DecidableEq

/-- Layout result (elkUtils lines 18-24); its contents are produced by the
external engine and are opaque to the core. -/
structure ELKLayout where
  id : String
  children : List ELKNode
  edges : List ELKEdge
  width : Nat
  height : Nat
  deriving Repr, DecidableEq

/-- The node list of the layout request (elkUtils lines 66-70). -/
def mkNodes (displayed : List Employee) : List ELKNode :=
  displayed.map (fun e => { id := e.id, width := 220, height := 80 })

/-- The edge list of the layout request (elkUtils lines 72-78):
`displayEmployees.filter(emp => emp.managerId && nodesToShow.has(emp.managerId)
&& nodesToShow.has(emp.id)).map(...)`, each edge
`edge-${managerId}-${id}` from the manager to the employee. -/
def mkEdges (displayed : List Employee) (nodesToShow : List String) : List ELKEdge :=
  (displayed.filter (fun e =>
      e.managerId != "" && nodesToShow.contains e.managerId && nodesToShow.contains e.id)).map
    (fun e => { id := "edge-" ++ e.managerId ++ "-" ++ e.id
                sources := [e.managerId]
                targets := [e.id] })

/-- The request handed to `elk.layout` (elkUtils lines 81-91); the layout
options are plain configuration constants and carry no semantics here. -/
structure ELKRequest where
  id : String
  children : List ELKNode
  edges : List ELKEdge
  deriving Repr, DecidableEq

/-- `calculateOrgChartLayout` (elkUtils lines 40-98).  The external engine is
a parameter: `Except.error` models a failed or throwing `elk.layout` call,
whose `catch` branch returns `null`.  The outer `Option` is the fuel monad of
the chain walks (`none` = the source function does not terminate); the inner
`Option` is the function's `ELKLayout | null` result. -/
def calculateOrgChartLayout (engine : ELKRequest → Except Unit ELKLayout)
    (employees filteredEmployees : List Employee) (fuel : Nat) :
    Option (Option ELKLayout) :=
  if filteredEmployees.isEmpty then some none
  else
    match extractNodes employees filteredEmployees fuel with
    | none => none
    | some nodesToShow =>
      match engine { id := "root"
                     children := mkNodes (displayEmployees employees nodesToShow)
                     edges := mkEdges (displayEmployees employees nodesToShow) nodesToShow } with
      | Except.ok graph => some (some graph)
      | Except.error _ => some none

/-- The PATCH request issued by `updateEmployeeManager` (OrgTree.tsx lines
85-101): URL `/api/employees/${draggedId}`, body
`{ managerId: newManagerId, ...employee }`.  Because the spread of
`employee` comes after the `managerId` key, the employee's current
`managerId` overrides `newManagerId` in the body whenever the employee is
found; only when the lookup fails does `newManagerId` survive.
`payloadManagerId` is the `managerId` field of the body actually sent;
`payloadAttrs` the spread employee record. -/
structure PatchRequest where
  employeeId : String
  payloadManagerId : String
  payloadAttrs : Option Employee
  deriving Repr, DecidableEq

/-- Builds the PATCH body of `updateEmployeeManager` from the employee
collection captured by its closure (the pre-mutation collection). -/
def updateEmployeeManagerRequest (employees : List Employee)
    (draggedId newManagerId : String) : PatchRequest :=
  match employees.find? (fun e => e.id == draggedId) with
  | some emp => { employeeId := draggedId, payloadManagerId := emp.managerId
                  payloadAttrs := some emp }
  | none => { employeeId := draggedId, payloadManagerId := newManagerId
              payloadAttrs := none }

/-- User-visible notifications raised by the coordinator. -/
inductive Notice where
  | info : String → Notice
  | userError : String → Notice
  deriving Repr, DecidableEq

/-- Removes the first occurrence of `pat` from a character list —
`String.prototype.replace(pat, "")` with a plain-string pattern. -/
def removeFirstAux (pat : List Char) : List Char → List Char
  | [] => []
  | c :: rest =>
    if pat.isPrefixOf (c :: rest) then (c :: rest).drop pat.length
    else c :: removeFirstAux pat rest

/-- `s.replace(pat, "")` for the first occurrence, as used on droppable ids
(`over.id.toString().replace("drop-", "")`, OrgTree.tsx line 118). -/
def replaceFirst (pat s : String) : String :=
  ⟨removeFirstAux pat.data s.data⟩

/-- Outcome of one `handleDragEnd` run: the employee collection after the
synchronous local step, the persistence request issued (if any), and the
notice raised (if any). -/
structure DragEndResult where
  employees : List Employee
  request : Option PatchRequest
  notice : Option Notice
  deriving Repr, DecidableEq

/-- `handleDragEnd` (OrgTree.tsx lines 110-136), fuel-indexed through its
call to `isSubordinate`.  `overId = none` models a drop outside any target
(`!over`).  On acceptance the collection is updated synchronously
(`setEmployees`) and one PATCH request is issued, built from the
pre-mutation collection exactly as `updateEmployeeManager`'s closure sees
it. -/
def handleDragEnd (fuel : Nat) (employees : List Employee)
    (activeId : String) (overId : Option String) : Option DragEndResult :=
  match overId with
  | none => some { employees := employees, request := none, notice := none }
  | some ov =>
    if activeId = ov then some { employees := employees, request := none, notice := none }
    else
      let draggedId := activeId
      let newManagerId := replaceFirst "drop-" ov
      if draggedId = newManagerId then
        some { employees := employees, request := none, notice := none }
      else
        match isSubordinate employees fuel draggedId newManagerId with
        | none => none
        | some true =>
          some { employees := employees, request := none
                 notice := some (Notice.info "Cannot assign a subordinate as manager!") }
        | some false =>
          some { employees := employees.map (fun e =>
                   if e.id = draggedId then { e with managerId := newManagerId } else e)
                 request := some (updateEmployeeManagerRequest employees draggedId newManagerId)
                 notice := none }

/-- Completion of `updateEmployeeManager`'s awaited PATCH (OrgTree.tsx lines
86-100): on success nothing further happens; on failure the `catch` block
raises an error notification and does nothing else — in particular it does
not touch the employee collection. -/
def updateEmployeeManagerCompletion (employees : List Employee) (succeeded : Bool) :
    List Employee × Option Notice :=
  if succeeded then (employees, none)
  else (employees, some (Notice.userError "Error updating employee manager"))

/-- The full reparent flow: `handleDragEnd` followed, when a persistence
request was issued, by the completion of that request with the given
outcome. -/
def reparentFlow (fuel : Nat) (employees : List Employee) (activeId : String)
    (overId : Option String) (persistSucceeds : Bool) :
    Option (List Employee × Option Notice) :=
  match handleDragEnd fuel employees activeId overId with
  | none => none
  | some r =>
    match r.request with
    | none => some (r.employees, r.notice)
    | some _ => some (updateEmployeeManagerCompletion r.employees persistSucceeds)

/-- One layout-computation completion as handled by the effect in OrgTree.tsx
lines 45-56: `const graph = await calculateOrgChartLayout(...); if (graph)
setLayout(graph);` — a non-null result is applied unconditionally, a null
result leaves the displayed layout alone.  There is no sequence number or
cancellation token. -/
def applyLayoutResult (current graph : Option ELKLayout) : Option ELKLayout :=
  match graph with
  | some g => some g
  | none => current

/-- The displayed layout after a list of asynchronous completions, applied in
arrival order. -/
def applyCompletions (init : Option ELKLayout) (completions : List (Option ELKLayout)) :
    Option ELKLayout :=
  completions.foldl applyLayoutResult init

/-- The employee a manager link resolves to: `none` for a root (`managerId`
falsy) or an unresolved id, otherwise the first employee carrying that id. -/
def managerOf (employees : List Employee) (e : Employee) : Option Employee :=
  if e.managerId = "" then none
  else employees.find? (fun m => m.id == e.managerId)

/-- The manager relation restricted to resolved links is acyclic and ids are
pairwise distinct: a rank function witnesses well-foundedness (every
resolved manager ranks strictly below its report), which for a finite
collection is equivalent to the absence of cycles. -/
def IsForest (employees : List Employee) : Prop :=
  (employees.map Employee.id).Nodup ∧
  ∃ rank : String → Nat, ∀ e ∈ employees, ∀ m, managerOf employees e = some m →
    rank m.id < rank e.id

/-- Executable check that `rank` decreases along every resolved manager link. -/
def rankChecks (employees : List Employee) (rank : String → Nat) : Bool :=
  employees.all (fun e =>
    match managerOf employees e with
    | none => true
    | some m => rank m.id < rank e.id)

/-! Concrete fixtures: the three-employee chain of the spec's scenarios
(`1` a root, `2` managed by `1`, `3` managed by `2`) and a two-employee
manager cycle. -/

def emp1 : Employee :=
  { id := "1", name := "Mark Hill", designation := "Chief Executive Officer"
    team := "Executive", managerId := "" }

def emp2 : Employee :=
  { id := "2", name := "Joe Linux", designation := "Chief Technology Officer"
    team := "Technology", managerId := "1" }

def emp3 : Employee :=
  { id := "3", name := "Linda May", designation := "Chief Business Officer"
    team := "Business", managerId := "2" }

def chain3 : List Employee := [emp1, emp2, emp3]

def cycA : Employee :=
  { id := "a", name := "A", designation := "X", team := "T", managerId := "b" }

def cycB : Employee :=
  { id := "b", name := "B", designation := "X", team := "T", managerId := "a" }

def cyc2 : List Employee := [cycA, cycB]

/-- A rank function witnessing that `chain3` is a forest. -/
def rank3 : String → Nat :=
  fun s => if s = "1" then 0 else if s = "2" then 1 else 2

/-- A collection whose top manager id (`"1"`) is unresolved: employee `2`
points at a manager that exists nowhere in the collection. -/
def mid2 : List Employee := [emp2, emp3]

/-- A layout as returned for an older (superseded) request. -/
def layoutOne : ELKLayout :=
  { id := "root", children := [{ id := "1", width := 220, height := 80 }]
    edges := [], width := 220, height := 80 }

/-- A layout as returned for the newest request. -/
def layoutTwo : ELKLayout :=
  { id := "root"
    children := [{ id := "1", width := 220, height := 80 },
                 { id := "2", width := 220, height := 80 }]
    edges := [], width := 440, height := 160 }

/-- C1 (code bug): dragging employee `3` onto `1` over the scenario-3 chain
is accepted; the local collection is synchronously updated (employee 3's
`managerId` becomes `"1"`) and exactly one PATCH request is issued — but the
request body's `managerId` is `"2"`, the old manager, not the target `"1"`:
in `{ managerId: newManagerId, ...employee }` the spread of `employee`
overrides the `managerId` key, so the new manager id never reaches the
remote store. -/
theorem reparent_accepted_payload_stale :
    handleDragEnd 10 chain3 "3" (some "drop-1") =
      some { employees := [emp1, emp2, { emp3 with managerId := "1" }]
             request := some { employeeId := "3", payloadManagerId := "2"
                               payloadAttrs := some emp3 }
             notice := none } ∧
    ({ emp3 with managerId := "1" } : Employee).managerId = "1" ∧
    ("2" : String) ≠ "1" := by decide

theorem cyc2_walks_diverge_aux : ∀ fuel : Nat,
    (isSubordinate cyc2 fuel "z" "a" = none ∧ isSubordinate cyc2 fuel "z" "b" = none) ∧
    (chainWalk cyc2 fuel cycA = none ∧ chainWalk cyc2 fuel cycB = none) := by
  intro fuel
  induction fuel with
  | zero => exact ⟨⟨rfl, rfl⟩, rfl, rfl⟩
  | succ n ih =>
    obtain ⟨⟨hsa, hsb⟩, hca, hcb⟩ := ih
    refine ⟨⟨?_, ?_⟩, ?_, ?_⟩
    · exact (rfl : isSubordinate cyc2 (n + 1) "z" "a" =
        isSubordinate cyc2 n "z" "b").trans hsb
    · exact (rfl : isSubordinate cyc2 (n + 1) "z" "b" =
        isSubordinate cyc2 n "z" "a").trans hsa
    · have h : chainWalk cyc2 (n + 1) cycA =
          (chainWalk cyc2 n cycB).map (fun l => "b" :: l) := rfl
      rw [h, hcb]
      rfl
    · have h : chainWalk cyc2 (n + 1) cycB =
          (chainWalk cyc2 n cycA).map (fun l => "a" :: l) := rfl
      rw [h, hca]
      rfl

/-- C3 (code bug): on the cyclic collection `a ↔ b` neither ancestor walk
completes at any recursion depth — `isSubordinate` (queried for a candidate
`"z"` that the cycle never reaches) and the extractor's manager-chain walk
both return `none` for every fuel, i.e. the source functions, which carry no
visited set, loop forever instead of terminating with `false` as the claim
requires. -/
theorem walks_diverge_on_cycle : ∀ fuel : Nat,
    isSubordinate cyc2 fuel "z" "a" = none ∧ chainWalk cyc2 fuel cycA = none :=
  fun fuel => ⟨(cyc2_walks_diverge_aux fuel).1.1, (cyc2_walks_diverge_aux fuel).2.1⟩

/-- C4 (code bug): scenario 5 — after the accepted optimistic reparent of
employee `3` onto `1`, a failing persistence write raises a user-visible
error notification but performs no revert: employee 3's `managerId` stays at
the optimistic `"1"` instead of returning to its pre-proposal value `"2"`. -/
theorem persist_failure_no_revert :
    reparentFlow 10 chain3 "3" (some "drop-1") false =
      some ([emp1, emp2, { emp3 with managerId := "1" }],
            some (Notice.userError "Error updating employee manager")) ∧
    ({ emp3 with managerId := "1" } : Employee).managerId ≠ "2" := by decide

theorem isSubordinate_step (es : List Employee) (fuel : Nat) (empId subId : String) :
    isSubordinate es (fuel + 1) empId subId =
      match es.find? (fun e => e.id == subId) with
      | none => some false
      | some emp =>
        if emp.managerId = "" then some false
        else if emp.managerId = empId then some true
        else isSubordinate es fuel empId emp.managerId := rfl

theorem find_cons_true {p : Employee → Bool} {a : Employee} (t : List Employee)
    (h : p a = true) : (a :: t).find? p = some a := by
  simp [List.find?, h]

theorem find_cons_false {p : Employee → Bool} {a : Employee} (t : List Employee)
    (h : p a = false) : (a :: t).find? p = t.find? p := by
  simp [List.find?, h]

theorem find_id_self (es : List Employee)
    (hnodup : (es.map Employee.id).Nodup) (e : Employee) (he : e ∈ es) :
    es.find? (fun x => x.id == e.id) = some e := by
  induction es with
  | nil => cases he
  | cons h t ih =>
    rw [List.map_cons, List.nodup_cons] at hnodup
    rcases List.mem_cons.mp he with rfl | hmem
    · exact find_cons_true t (by simp)
    · have hne : (h.id == e.id) = false := by
        simp only [beq_eq_false_iff_ne, ne_eq]
        intro hid
        exact hnodup.1 (hid ▸ List.mem_map_of_mem Employee.id hmem)
      rw [find_cons_false t hne]
      exact ih hnodup.2 hmem

theorem id_injOn (es : List Employee) (hnodup : (es.map Employee.id).Nodup)
    {x y : Employee} (hx : x ∈ es) (hy : y ∈ es) (h : x.id = y.id) : x = y := by
  induction es with
  | nil => cases hx
  | cons a t ih =>
    rw [List.map_cons, List.nodup_cons] at hnodup
    rcases List.mem_cons.mp hx with rfl | hx2
    · rcases List.mem_cons.mp hy with rfl | hy2
      · rfl
      · exact absurd (h ▸ List.mem_map_of_mem Employee.id hy2) hnodup.1
    · rcases List.mem_cons.mp hy with rfl | hy2
      · exact absurd (h ▸ List.mem_map_of_mem Employee.id hx2) hnodup.1
      · exact ih hnodup.2 hx2 hy2

/-- C2: every rejected reparent proposal leaves the employee collection
unchanged and issues no persistence request: a missing drop target, a raw
self-drop (`active.id === over.id`), a self-assignment after stripping the
`drop-` prefix, and the cycle case — the dragged employee is an ancestor of
the drop target, i.e. `isSubordinate` answers `true` — which additionally
raises the informational (non-error) notice. -/
theorem handleDragEnd_rejected_no_side_effects (fuel : Nat)
    (employees : List Employee) (activeId : String) :
    (handleDragEnd fuel employees activeId none =
       some { employees := employees, request := none, notice := none }) ∧
    (∀ ov, activeId = ov ∨ activeId = replaceFirst "drop-" ov →
       handleDragEnd fuel employees activeId (some ov) =
         some { employees := employees, request := none, notice := none }) ∧
    (∀ ov, activeId ≠ ov → activeId ≠ replaceFirst "drop-" ov →
       isSubordinate employees fuel activeId (replaceFirst "drop-" ov) = some true →
       handleDragEnd fuel employees activeId (some ov) =
         some { employees := employees, request := none
                notice := some (Notice.info "Cannot assign a subordinate as manager!") }) := by
  refine ⟨rfl, ?_, ?_⟩
  · intro ov h
    rcases h with h | h
    · simp [handleDragEnd, h]
    · by_cases h2 : activeId = ov
      · simp [handleDragEnd, h2]
      · simp [handleDragEnd, h2, h]
  · intro ov h1 h2 h3
    simp [handleDragEnd, h1, h2, h3]

/-- C2 witness: scenario 4 — dragging `1` onto its descendant `3` is
rejected with the informational notice, the collection untouched and no
request issued. -/
theorem handleDragEnd_rejected_no_side_effects_witness :
    handleDragEnd 10 chain3 "1" (some "drop-3") =
      some { employees := chain3, request := none
             notice := some (Notice.info "Cannot assign a subordinate as manager!") } :=
  (handleDragEnd_rejected_no_side_effects 10 chain3 "1").2.2 "drop-3"
    (by decide) (by decide) (by decide)

/-- C7: in any collection with pairwise-distinct ids containing the chain
A (root, no manager) ← B (manager A) ← C (manager B), the cycle-guard query
— `isAncestor(candidate, of)` is `isSubordinate(candidate, of)` in the
source — answers `isAncestor(A, C) = true`, `isAncestor(C, A) = false` and
the self-query `isAncestor(B, B) = false`, at every recursion depth of at
least 3. -/
theorem isAncestor_chain_queries (es : List Employee) (a b c : Employee)
    (hnodup : (es.map Employee.id).Nodup)
    (ha : a ∈ es) (hb : b ∈ es) (hc : c ∈ es)
    (haroot : a.managerId = "") (hba : b.managerId = a.id) (hcb : c.managerId = b.id)
    (haid : a.id ≠ "") (hbid : b.id ≠ "") :
    ∀ fuel, 3 ≤ fuel →
      isSubordinate es fuel a.id c.id = some true ∧
      isSubordinate es fuel c.id a.id = some false ∧
      isSubordinate es fuel b.id b.id = some false := by
  have hab : a.id ≠ b.id := by
    intro h
    have hb2 : b.managerId = b.id := h ▸ hba
    have heq : a = b := id_injOn es hnodup ha hb h
    rw [← heq, haroot] at hb2
    exact haid hb2.symm
  intro fuel hfuel
  obtain ⟨k, rfl⟩ : ∃ k, fuel = k + 3 := ⟨fuel - 3, by omega⟩
  refine ⟨?_, ?_, ?_⟩
  · rw [isSubordinate_step, find_id_self es hnodup c hc]
    simp only [hcb]
    rw [if_neg hbid, if_neg (Ne.symm hab)]
    rw [isSubordinate_step, find_id_self es hnodup b hb]
    simp only [hba]
    rw [if_neg haid]
    simp
  · rw [isSubordinate_step, find_id_self es hnodup a ha]
    simp [haroot]
  · rw [isSubordinate_step, find_id_self es hnodup b hb]
    simp only [hba]
    rw [if_neg haid, if_neg hab]
    rw [isSubordinate_step, find_id_self es hnodup a ha]
    simp [haroot]

/-- C7 witness: the spec's chain `1` (root) ← `2` ← `3` at depth 3. -/
theorem isAncestor_chain_queries_witness :
    isSubordinate chain3 3 emp1.id emp3.id = some true ∧
    isSubordinate chain3 3 emp3.id emp1.id = some false ∧
    isSubordinate chain3 3 emp2.id emp2.id = some false :=
  isAncestor_chain_queries chain3 emp1 emp2 emp3 (by decide) (by decide) (by decide)
    (by decide) (by decide) (by decide) (by decide) (by decide) (by decide) 3 (by decide)

/-- C8: extraction-and-layout yields null, never a thrown or partial result,
in the degenerate cases: an empty visible set returns null (the engine is
not consulted), and when the engine fails or throws, every completed run
returns null. -/
theorem calculateOrgChartLayout_null_cases
    (engine : ELKRequest → Except Unit ELKLayout)
    (employees visibleEmployees : List Employee) (fuel : Nat)
    (hfail : ∀ req, engine req = Except.error ()) :
    calculateOrgChartLayout engine employees [] fuel = some none ∧
    (∀ r, calculateOrgChartLayout engine employees visibleEmployees fuel = some r →
       r = none) := by
  constructor
  · rfl
  · intro r hr
    unfold calculateOrgChartLayout at hr
    split at hr
    · exact (Option.some.inj hr).symm
    · split at hr
      · cases hr
      · rw [hfail] at hr
        exact (Option.some.inj hr).symm

/-- C8 witness: an always-failing engine over the scenario chain. -/
theorem calculateOrgChartLayout_null_cases_witness :
    calculateOrgChartLayout (fun _ => Except.error ()) chain3 [] 10 = some none ∧
    (∀ r, calculateOrgChartLayout (fun _ => Except.error ()) chain3 chain3 10 = some r →
       r = none) :=
  calculateOrgChartLayout_null_cases (fun _ => Except.error ()) chain3 chain3 10
    (fun _ => rfl)

/-- C9 (code bug): two layout computations overlap; the newer request's
result arrives first, the superseded older request's result arrives second.
The effect applies every non-null completion in arrival order — there is no
sequence number — so the displayed layout ends at the stale older result,
overwriting the newer one. -/
theorem stale_layout_applied :
    applyCompletions none [some layoutTwo, some layoutOne] = some layoutOne ∧
    layoutOne ≠ layoutTwo := by decide

theorem isForest_of_rankChecks (employees : List Employee) (rank : String → Nat)
    (hnodup : (employees.map Employee.id).Nodup)
    (h : rankChecks employees rank = true) : IsForest employees := by
  refine ⟨hnodup, rank, ?_⟩
  intro e he m hm
  have := List.all_eq_true.mp h e he
  rw [hm] at this
  simpa using this

theorem chainWalk_step (es : List Employee) (fuel : Nat) (c : Employee) :
    chainWalk es (fuel + 1) c =
      if c.managerId = "" then some []
      else
        match es.find? (fun e => e.id == c.managerId) with
        | none => some [c.managerId]
        | some next => (chainWalk es fuel next).map (fun l => c.managerId :: l) := rfl

theorem walkAll_cons (es : List Employee) (fuel : Nat) (v : Employee)
    (rest : List Employee) :
    walkAll es fuel (v :: rest) =
      match chainWalk es fuel v, walkAll es fuel rest with
      | some l, some ls => some (l ++ ls)
      | _, _ => none := rfl

theorem chainWalk_head (es : List Employee) (fuel : Nat) (c : Employee) (l : List String)
    (h : chainWalk es fuel c = some l) (hm : c.managerId ≠ "") :
    c.managerId ∈ l := by
  cases fuel with
  | zero => cases h
  | succ n =>
    rw [chainWalk_step, if_neg hm] at h
    cases hfe : es.find? (fun e => e.id == c.managerId) with
    | none =>
      rw [hfe] at h
      obtain rfl : [c.managerId] = l := Option.some.inj h
      exact List.mem_singleton_self _
    | some next =>
      rw [hfe] at h
      rcases Option.map_eq_some'.mp h with ⟨l2, _, rfl⟩
      exact List.mem_cons_self _ _

theorem chainWalk_closed (es : List Employee) :
    ∀ (fuel : Nat) (c : Employee) (l : List String),
      chainWalk es fuel c = some l →
      ∀ x ∈ l, ∀ e, es.find? (fun m => m.id == x) = some e →
        e.managerId ≠ "" → e.managerId ∈ l := by
  intro fuel
  induction fuel with
  | zero => intro c l h; cases h
  | succ n ih =>
    intro c l h x hx e hfind hene
    by_cases hm : c.managerId = ""
    · rw [chainWalk_step, if_pos hm] at h
      obtain rfl : ([] : List String) = l := Option.some.inj h
      cases hx
    · rw [chainWalk_step, if_neg hm] at h
      cases hfe : es.find? (fun m => m.id == c.managerId) with
      | none =>
        rw [hfe] at h
        obtain rfl : [c.managerId] = l := Option.some.inj h
        obtain rfl : x = c.managerId := List.mem_singleton.mp hx
        rw [hfind] at hfe
        cases hfe
      | some next =>
        rw [hfe] at h
        rcases Option.map_eq_some'.mp h with ⟨l2, hcw, rfl⟩
        rcases List.mem_cons.mp hx with rfl | hx2
        · have he : e = next := by
            rw [hfind] at hfe
            exact Option.some.inj hfe
          subst he
          exact List.mem_cons_of_mem _ (chainWalk_head es n e l2 hcw hene)
        · exact List.mem_cons_of_mem _ (ih next l2 hcw x hx2 e hfind hene)

theorem chainWalk_terminates (es : List Employee) (rank : String → Nat)
    (hrank : ∀ e ∈ es, ∀ m, managerOf es e = some m → rank m.id < rank e.id) :
    ∀ (fuel : Nat) (c : Employee), c ∈ es → rank c.id < fuel →
      ∃ l, chainWalk es fuel c = some l := by
  intro fuel
  induction fuel with
  | zero => intro c _ hlt; exact absurd hlt (Nat.not_lt_zero _)
  | succ n ih =>
    intro c hc hlt
    by_cases hm : c.managerId = ""
    · exact ⟨[], by rw [chainWalk_step, if_pos hm]⟩
    · cases hfe : es.find? (fun e => e.id == c.managerId) with
      | none => exact ⟨[c.managerId], by rw [chainWalk_step, if_neg hm, hfe]⟩
      | some next =>
        have hmo : managerOf es c = some next := by
          rw [managerOf, if_neg hm]
          exact hfe
        have hnm : next ∈ es := List.mem_of_find?_eq_some hfe
        have hlt2 : rank next.id < n := by
          have := hrank c hc next hmo
          omega
        obtain ⟨l, hl⟩ := ih next hnm hlt2
        refine ⟨c.managerId :: l, ?_⟩
        rw [chainWalk_step, if_neg hm, hfe]
        show (chainWalk es n next).map (fun l => c.managerId :: l) = some (c.managerId :: l)
        rw [hl]
        rfl

theorem walkAll_each (es : List Employee) (fuel : Nat) :
    ∀ (vs : List Employee) (ls : List String), walkAll es fuel vs = some ls →
      ∀ v ∈ vs, ∃ l, chainWalk es fuel v = some l ∧ ∀ x ∈ l, x ∈ ls := by
  intro vs
  induction vs with
  | nil => intro ls _ v hv; cases hv
  | cons a rest ih =>
    intro ls h v hv
    cases hca : chainWalk es fuel a with
    | none =>
      rw [walkAll_cons, hca] at h
      exact Option.noConfusion (show (none : Option (List String)) = some ls from h)
    | some la =>
      cases hwr : walkAll es fuel rest with
      | none =>
        rw [walkAll_cons, hca, hwr] at h
        exact Option.noConfusion (show (none : Option (List String)) = some ls from h)
      | some lr =>
        rw [walkAll_cons, hca, hwr] at h
        obtain rfl : la ++ lr = ls := Option.some.inj h
        rcases List.mem_cons.mp hv with rfl | hv2
        · exact ⟨la, hca, fun x hx => List.mem_append_left _ hx⟩
        · rcases ih lr hwr v hv2 with ⟨l, hl, hsub⟩
          exact ⟨l, hl, fun x hx => List.mem_append_right _ (hsub x hx)⟩

theorem walkAll_mem (es : List Employee) (fuel : Nat) :
    ∀ (vs : List Employee) (ls : List String), walkAll es fuel vs = some ls →
      ∀ x ∈ ls, ∃ v, v ∈ vs ∧ ∃ l, chainWalk es fuel v = some l ∧ x ∈ l := by
  intro vs
  induction vs with
  | nil =>
    intro ls h x hx
    obtain rfl : ([] : List String) = ls := Option.some.inj h
    cases hx
  | cons a rest ih =>
    intro ls h x hx
    cases hca : chainWalk es fuel a with
    | none =>
      rw [walkAll_cons, hca] at h
      exact Option.noConfusion (show (none : Option (List String)) = some ls from h)
    | some la =>
      cases hwr : walkAll es fuel rest with
      | none =>
        rw [walkAll_cons, hca, hwr] at h
        exact Option.noConfusion (show (none : Option (List String)) = some ls from h)
      | some lr =>
        rw [walkAll_cons, hca, hwr] at h
        obtain rfl : la ++ lr = ls := Option.some.inj h
        rcases List.mem_append.mp hx with hx1 | hx2
        · exact ⟨a, List.mem_cons_self a rest, la, hca, hx1⟩
        · rcases ih lr hwr x hx2 with ⟨v, hv, l, hl, hxl⟩
          exact ⟨v, List.mem_cons_of_mem a hv, l, hl, hxl⟩

theorem walkAll_terminates (es : List Employee) (fuel : Nat) :
    ∀ (vs : List Employee), (∀ v ∈ vs, ∃ l, chainWalk es fuel v = some l) →
      ∃ ls, walkAll es fuel vs = some ls := by
  intro vs
  induction vs with
  | nil => intro _; exact ⟨[], rfl⟩
  | cons a rest ih =>
    intro h
    obtain ⟨la, hla⟩ := h a (List.mem_cons_self a rest)
    obtain ⟨lr, hlr⟩ := ih (fun v hv => h v (List.mem_cons_of_mem a hv))
    exact ⟨la ++ lr, by rw [walkAll_cons, hla, hlr]⟩

theorem le_foldr_max (f : Employee → Nat) (l : List Employee) (e : Employee)
    (he : e ∈ l) : f e ≤ (l.map f).foldr max 0 := by
  induction l with
  | nil => cases he
  | cons a t ih =>
    rw [List.map_cons, List.foldr_cons]
    rcases List.mem_cons.mp he with rfl | h2
    · exact le_max_left _ _
    · exact le_trans (ih h2) (le_max_right _ _)

/-- C5: over a forest with a non-empty visible subset, extraction terminates,
and the extracted node set is ancestor-closed: every employee of the full
collection whose id lies in the node set and whose manager link resolves to
an existing employee has that manager's id in the node set as well. -/
theorem extractNodes_ancestor_closed (full visible : List Employee)
    (hforest : IsForest full)
    (hsub : ∀ v ∈ visible, v ∈ full)
    (hne : visible ≠ []) :
    (∃ fuel ns, extractNodes full visible fuel = some ns) ∧
    (∀ fuel ns, extractNodes full visible fuel = some ns →
      ∀ e ∈ full, e.id ∈ ns → e.managerId ≠ "" →
        ∀ m, full.find? (fun x => x.id == e.managerId) = some m → m.id ∈ ns) := by
  obtain ⟨hnodup, rank, hrank⟩ := hforest
  constructor
  · have hterm : ∀ v ∈ visible,
        ∃ l, chainWalk full ((full.map (fun e => rank e.id)).foldr max 0 + 1) v = some l := by
      intro v hv
      refine chainWalk_terminates full rank hrank _ v (hsub v hv) ?_
      have h1 : rank v.id ≤ (full.map (fun e => rank e.id)).foldr max 0 :=
        le_foldr_max (fun e => rank e.id) full v (hsub v hv)
      omega
    obtain ⟨ls, hls⟩ :=
      walkAll_terminates full ((full.map (fun e => rank e.id)).foldr max 0 + 1) visible hterm
    refine ⟨(full.map (fun e => rank e.id)).foldr max 0 + 1,
      visible.map (fun e => e.id) ++ ls, ?_⟩
    rw [extractNodes, hls]
    rfl
  · intro fuel ns hext e he heid hene m hm
    cases hwa : walkAll full fuel visible with
    | none =>
      rw [extractNodes, hwa] at hext
      exact Option.noConfusion (show (none : Option (List String)) = some ns from hext)
    | some ls =>
      rw [extractNodes, hwa] at hext
      obtain rfl : visible.map (fun e => e.id) ++ ls = ns := Option.some.inj hext
      have hmid : m.id = e.managerId := by
        have := List.find?_some hm
        simpa using this
      rcases List.mem_append.mp heid with h1 | h2
      · rcases List.mem_map.mp h1 with ⟨v, hv, hveid⟩
        have hveq : v = e := id_injOn full hnodup (hsub v hv) he hveid
        subst hveq
        obtain ⟨l, hl, hlsub⟩ := walkAll_each full fuel visible ls hwa v hv
        have hhead : v.managerId ∈ l := chainWalk_head full fuel v l hl hene
        exact hmid ▸ List.mem_append_right _ (hlsub _ hhead)
      · obtain ⟨v, hv, l, hl, hxl⟩ := walkAll_mem full fuel visible ls hwa e.id h2
        have hfind_e : full.find? (fun x => x.id == e.id) = some e :=
          find_id_self full hnodup e he
        have hclosed := chainWalk_closed full fuel v l hl e.id hxl e hfind_e hene
        obtain ⟨l2, hl2, hl2sub⟩ := walkAll_each full fuel visible ls hwa v hv
        have hll : l2 = l := by
          rw [hl] at hl2
          exact (Option.some.inj hl2).symm
        rw [hll] at hl2sub
        exact hmid ▸ List.mem_append_right _ (hl2sub _ hclosed)

/-- C5 witness: scenario 1's forest (`1` root ← `2` ← `3`) with only
employee `3` visible. -/
theorem extractNodes_ancestor_closed_witness :
    (∃ fuel ns, extractNodes chain3 [emp3] fuel = some ns) ∧
    (∀ fuel ns, extractNodes chain3 [emp3] fuel = some ns →
      ∀ e ∈ chain3, e.id ∈ ns → e.managerId ≠ "" →
        ∀ m, chain3.find? (fun x => x.id == e.managerId) = some m → m.id ∈ ns) :=
  extractNodes_ancestor_closed chain3 [emp3]
    (isForest_of_rankChecks chain3 rank3 (by decide) (by decide))
    (by decide) (by decide)

theorem contains_iff (l : List String) (a : String) : l.contains a = true ↔ a ∈ l := by
  simp [List.elem_iff]

theorem count_map_eq_one {β : Type} [DecidableEq β] (f : Employee → β)
    (l : List Employee) (a : Employee) (ha : a ∈ l) (hnd : l.Nodup)
    (hinj : ∀ b ∈ l, f b = f a → b = a) :
    (l.map f).count (f a) = 1 := by
  induction l with
  | nil => cases ha
  | cons x t ih =>
    rw [List.map_cons]
    rw [List.nodup_cons] at hnd
    rcases List.mem_cons.mp ha with rfl | ha2
    · rw [List.count_cons_self]
      have hz : (t.map f).count (f a) = 0 := by
        rw [List.count_eq_zero]
        intro hmem
        rcases List.mem_map.mp hmem with ⟨b, hb, hfb⟩
        exact hnd.1 (hinj b (List.mem_cons_of_mem _ hb) hfb ▸ hb)
      omega
    · have hx : f x ≠ f a := fun h =>
        hnd.1 ((hinj x (List.mem_cons_self x t) h) ▸ ha2)
      rw [List.count_cons_of_ne (Ne.symm hx)]
      exact ih ha2 hnd.2 (fun b hb => hinj b (List.mem_cons_of_mem x hb))

/-- C6: relative to a node set produced by extraction, the edge list is sound
— every edge is generated by an employee of the full collection whose id and
managerId both lie in the node set, its source being that managerId and its
target that id — and exactly complete: every employee of the full collection
with a non-empty managerId whose id and managerId both lie in the node set
contributes exactly one edge `managerId → id`. -/
theorem mkEdges_sound_and_complete (full visible : List Employee) (fuel : Nat)
    (ns : List String)
    (hnodup : (full.map Employee.id).Nodup)
    (hne : visible ≠ [])
    (hext : extractNodes full visible fuel = some ns) :
    (∀ ed ∈ mkEdges (displayEmployees full ns) ns,
       ∃ emp, emp ∈ full ∧ emp.id ∈ ns ∧ emp.managerId ∈ ns ∧
         ed = { id := "edge-" ++ emp.managerId ++ "-" ++ emp.id
                sources := [emp.managerId], targets := [emp.id] }) ∧
    (∀ emp ∈ full, emp.managerId ≠ "" → emp.managerId ∈ ns → emp.id ∈ ns →
       (mkEdges (displayEmployees full ns) ns).count
         { id := "edge-" ++ emp.managerId ++ "-" ++ emp.id
           sources := [emp.managerId], targets := [emp.id] } = 1) := by
  constructor
  · intro ed hed
    rw [mkEdges] at hed
    rcases List.mem_map.mp hed with ⟨emp, hemp, rfl⟩
    rcases List.mem_filter.mp hemp with ⟨hdisp, hp⟩
    rw [displayEmployees] at hdisp
    rcases List.mem_filter.mp hdisp with ⟨hfull, hcont⟩
    simp only [Bool.and_eq_true] at hp
    exact ⟨emp, hfull, (contains_iff ns emp.id).mp hp.2,
      (contains_iff ns emp.managerId).mp hp.1.2, rfl⟩
  · intro emp hfull hmne hmmem hidmem
    rw [mkEdges]
    have hdispmem : emp ∈ displayEmployees full ns := by
      rw [displayEmployees]
      exact List.mem_filter.mpr ⟨hfull, (contains_iff ns emp.id).mpr hidmem⟩
    have hpm : (emp.managerId != "" && ns.contains emp.managerId
        && ns.contains emp.id) = true := by
      simp only [Bool.and_eq_true, bne_iff_ne, ne_eq]
      exact ⟨⟨hmne, (contains_iff ns emp.managerId).mpr hmmem⟩,
        (contains_iff ns emp.id).mpr hidmem⟩
    have hfmem : emp ∈ (displayEmployees full ns).filter (fun e =>
        e.managerId != "" && ns.contains e.managerId && ns.contains e.id) :=
      List.mem_filter.mpr ⟨hdispmem, hpm⟩
    have hnd : ((displayEmployees full ns).filter (fun e =>
        e.managerId != "" && ns.contains e.managerId && ns.contains e.id)).Nodup := by
      rw [displayEmployees]
      exact ((List.Nodup.of_map Employee.id hnodup).filter _).filter _
    refine count_map_eq_one
      (fun e => ({ id := "edge-" ++ e.managerId ++ "-" ++ e.id
                   sources := [e.managerId], targets := [e.id] } : ELKEdge))
      _ emp hfmem hnd ?_
    intro b hb hfb
    have hbid : b.id = emp.id := by
      have h2 := congrArg ELKEdge.targets hfb
      simpa using h2
    rcases List.mem_filter.mp hb with ⟨hb2, _⟩
    rw [displayEmployees] at hb2
    rcases List.mem_filter.mp hb2 with ⟨hbfull, _⟩
    exact id_injOn full hnodup hbfull hfull hbid

/-- C6 witness: scenario 1 — full = chain `1 ← 2 ← 3`, visible = `[3]`,
extracted node set `{3, 2, 1}`. -/
theorem mkEdges_sound_and_complete_witness :
    (∀ ed ∈ mkEdges (displayEmployees chain3 ["3", "2", "1"]) ["3", "2", "1"],
       ∃ emp, emp ∈ chain3 ∧ emp.id ∈ ["3", "2", "1"] ∧
         emp.managerId ∈ ["3", "2", "1"] ∧
         ed = { id := "edge-" ++ emp.managerId ++ "-" ++ emp.id
                sources := [emp.managerId], targets := [emp.id] }) ∧
    (∀ emp ∈ chain3, emp.managerId ≠ "" → emp.managerId ∈ ["3", "2", "1"] →
       emp.id ∈ ["3", "2", "1"] →
       (mkEdges (displayEmployees chain3 ["3", "2", "1"]) ["3", "2", "1"]).count
         { id := "edge-" ++ emp.managerId ++ "-" ++ emp.id
           sources := [emp.managerId], targets := [emp.id] } = 1) :=
  mkEdges_sound_and_complete chain3 [emp3] 10 ["3", "2", "1"]
    (by decide) (by decide) (by decide)

/-- C10: relative to a node set produced by extraction over a collection
with pairwise-distinct ids, the node list of the layout request has
pairwise-distinct ids, every node corresponds to an employee of the full
collection, and an id recorded by the walk that resolves to no employee —
an unresolved managerId — is never emitted as an output node. -/
theorem layout_nodes_exact (full visible : List Employee) (fuel : Nat)
    (ns : List String)
    (hnodup : (full.map Employee.id).Nodup)
    (hne : visible ≠ [])
    (hext : extractNodes full visible fuel = some ns) :
    ((mkNodes (displayEmployees full ns)).map ELKNode.id).Nodup ∧
    (∀ nd ∈ mkNodes (displayEmployees full ns), ∃ e, e ∈ full ∧ e.id = nd.id) ∧
    (∀ x ∈ ns, (∀ e ∈ full, e.id ≠ x) →
       ∀ nd ∈ mkNodes (displayEmployees full ns), nd.id ≠ x) := by
  refine ⟨?_, ?_, ?_⟩
  · have h : (mkNodes (displayEmployees full ns)).map ELKNode.id =
        (displayEmployees full ns).map Employee.id := by
      rw [mkNodes, List.map_map]
      rfl
    rw [h, displayEmployees]
    exact List.Nodup.sublist (List.Sublist.map Employee.id (List.filter_sublist full)) hnodup
  · intro nd hnd
    rw [mkNodes] at hnd
    rcases List.mem_map.mp hnd with ⟨e, he, rfl⟩
    rw [displayEmployees] at he
    rcases List.mem_filter.mp he with ⟨hf, _⟩
    exact ⟨e, hf, rfl⟩
  · intro x hx hno nd hnd
    rw [mkNodes] at hnd
    rcases List.mem_map.mp hnd with ⟨e, he, rfl⟩
    rw [displayEmployees] at he
    rcases List.mem_filter.mp he with ⟨hf, _⟩
    exact hno e hf

/-- C10 witness: collection `[2 (manager 1), 3 (manager 2)]` whose top
manager id `1` resolves to no employee; the walk records `1` in the node
set but the output node list is exactly `{2, 3}`. -/
theorem layout_nodes_exact_witness :
    ((mkNodes (displayEmployees mid2 ["3", "2", "1"])).map ELKNode.id).Nodup ∧
    (∀ nd ∈ mkNodes (displayEmployees mid2 ["3", "2", "1"]),
       ∃ e, e ∈ mid2 ∧ e.id = nd.id) ∧
    (∀ x ∈ ["3", "2", "1"], (∀ e ∈ mid2, e.id ≠ x) →
       ∀ nd ∈ mkNodes (displayEmployees mid2 ["3", "2", "1"]), nd.id ≠ x) :=
  layout_nodes_exact mid2 [emp3] 10 ["3", "2", "1"]
    (by decide) (by decide) (by decide)

end OrgGraph
